import Mathlib

/-!
Formal model of the connectivity subsystem of msmtools
(`msmtools/estimation/sparse/connectivity.py`).

A square weight matrix over the vertex set `Fin n` is modelled as a function
`Fin n → Fin n → ℚ`; an edge `i → j` exists iff the weight `C i j` is nonzero.
The scipy routine `scipy.sparse.csgraph.connected_components` that the source
delegates to is external to the repository; it is modelled from its documented
semantics (strongly connected components when `directed`, plain undirected
connectivity otherwise, labels assigned in a deterministic discovery order).
The list manipulations of `connected_sets`, `largest_connected_set`,
`largest_connected_submatrix` and `is_connected` are translated directly from
the source.
-/

namespace Connectivity

variable {n : ℕ}

/-- Bounded reachability: `reachN E k i j` holds iff there is a path of length
at most `k` from `i` to `j` along the Boolean adjacency relation `E`. -/
def reachN (E : Fin n → Fin n → Bool) : ℕ → Fin n → Fin n → Bool
  | 0, i, j => i == j
  | k + 1, i, j => reachN E k i j || (List.finRange n).any fun m => reachN E k i m && E m j

/-- Reachability: bounded reachability saturated after `n * n` steps. -/
def reach (E : Fin n → Fin n → Bool) (i j : Fin n) : Bool :=
  reachN E (n * n) i j

theorem reachN_refl (E : Fin n → Fin n → Bool) (k : ℕ) (i : Fin n) :
    reachN E k i i = true := by
  induction k with
  | zero => simp [reachN]
  | succ k ih => simp [reachN, ih]

theorem reachN_succ {E : Fin n → Fin n → Bool} {k : ℕ} {i j : Fin n}
    (h : reachN E k i j = true) : reachN E (k + 1) i j = true := by
  simp [reachN, h]

theorem reachN_mono {E : Fin n → Fin n → Bool} {k l : ℕ} {i j : Fin n}
    (hkl : k ≤ l) (h : reachN E k i j = true) : reachN E l i j = true := by
  induction l with
  | zero =>
    have : k = 0 := Nat.le_zero.mp hkl
    exact this ▸ h
  | succ l ih =>
    rcases Nat.lt_or_ge k (l + 1) with hlt | hge
    · exact reachN_succ (ih (Nat.lt_succ_iff.mp hlt))
    · have : k = l + 1 := Nat.le_antisymm hkl hge
      exact this ▸ h

theorem reachN_sound {E : Fin n → Fin n → Bool} {k : ℕ} :
    ∀ {i j : Fin n}, reachN E k i j = true →
      Relation.ReflTransGen (fun a b => E a b = true) i j := by
  induction k with
  | zero =>
    intro i j h
    simp only [reachN, beq_iff_eq] at h
    exact h ▸ Relation.ReflTransGen.refl
  | succ k ih =>
    intro i j h
    simp only [reachN, Bool.or_eq_true, List.any_eq_true, Bool.and_eq_true] at h
    rcases h with h | ⟨m, _, hm, hmj⟩
    · exact ih h
    · exact (ih hm).tail hmj

theorem rtg_reachN {E : Fin n → Fin n → Bool} {i j : Fin n}
    (h : Relation.ReflTransGen (fun a b => E a b = true) i j) :
    ∃ k, reachN E k i j = true := by
  induction h with
  | refl => exact ⟨0, by simp [reachN]⟩
  | tail _ hbc ih =>
    obtain ⟨k, hk⟩ := ih
    refine ⟨k + 1, ?_⟩
    simp only [reachN, Bool.or_eq_true, List.any_eq_true, Bool.and_eq_true]
    exact Or.inr ⟨_, List.mem_finRange _, hk, hbc⟩

theorem reachN_congr {E : Fin n → Fin n → Bool} {k l : ℕ}
    (h : ∀ a b : Fin n, reachN E k a b = reachN E l a b) :
    ∀ a b : Fin n, reachN E (k + 1) a b = reachN E (l + 1) a b := by
  intro a b
  simp only [reachN]
  rw [h a b]
  have hfun : (fun m => reachN E k a m && E m b) = fun m => reachN E l a m && E m b := by
    funext m
    rw [h a m]
  rw [hfun]

theorem reachN_fix {E : Fin n → Fin n → Bool} {k : ℕ}
    (h : ∀ a b : Fin n, reachN E (k + 1) a b = reachN E k a b) :
    ∀ m : ℕ, ∀ a b : Fin n, reachN E (k + m) a b = reachN E k a b := by
  intro m
  induction m with
  | zero => intro a b; rfl
  | succ m ih =>
    intro a b
    have hstep : ∀ a b : Fin n, reachN E (k + m + 1) a b = reachN E (k + 1) a b :=
      reachN_congr ih
    calc reachN E (k + (m + 1)) a b = reachN E (k + m + 1) a b := rfl
      _ = reachN E (k + 1) a b := hstep a b
      _ = reachN E k a b := h a b

/-- The set of pairs related by `reachN E k`. -/
def reachSet (E : Fin n → Fin n → Bool) (k : ℕ) : Finset (Fin n × Fin n) :=
  Finset.univ.filter fun p => reachN E k p.1 p.2

theorem reachSet_subset (E : Fin n → Fin n → Bool) (k : ℕ) :
    reachSet E k ⊆ reachSet E (k + 1) := by
  intro p hp
  simp only [reachSet, Finset.mem_filter, Finset.mem_univ, true_and] at hp ⊢
  exact reachN_succ hp

theorem reachN_exists_fix (E : Fin n → Fin n → Bool) :
    ∃ k, k ≤ n * n ∧ ∀ a b : Fin n, reachN E (k + 1) a b = reachN E k a b := by
  by_contra hcon
  push_neg at hcon
  have grow : ∀ k, k ≤ n * n → reachSet E k ⊂ reachSet E (k + 1) := by
    intro k hk
    obtain ⟨a, b, hab⟩ := hcon k hk
    refine (Finset.ssubset_iff_of_subset (reachSet_subset E k)).mpr ?_
    have h1 : reachN E k a b = false := by
      cases hka : reachN E k a b
      · rfl
      · exact absurd (by rw [reachN_succ hka, hka]) hab
    have h2 : reachN E (k + 1) a b = true := by
      cases hka : reachN E (k + 1) a b
      · exact absurd (by rw [hka, h1]) hab
      · rfl
    exact ⟨(a, b), by simp [reachSet, h2], by simp [reachSet, h1]⟩
  have card_ge : ∀ k, k ≤ n * n + 1 → k ≤ (reachSet E k).card := by
    intro k
    induction k with
    | zero => intro _; exact Nat.zero_le _
    | succ k ih =>
      intro hk
      have hk' : k ≤ n * n := Nat.succ_le_succ_iff.mp hk
      have hlt := Finset.card_lt_card (grow k hk')
      have hle := ih (Nat.le_succ_of_le hk')
      omega
  have hb := card_ge (n * n + 1) le_rfl
  have hub : (reachSet E (n * n + 1)).card ≤ n * n := by
    have h := Finset.card_le_univ (reachSet E (n * n + 1))
    simpa [Finset.card_univ] using h
  omega

theorem reach_complete {E : Fin n → Fin n → Bool} {i j : Fin n}
    (h : Relation.ReflTransGen (fun a b => E a b = true) i j) :
    reach E i j = true := by
  obtain ⟨k, hk⟩ := rtg_reachN h
  rcases le_or_lt k (n * n) with hle | hlt
  · exact reachN_mono hle hk
  · obtain ⟨k0, hk0le, hfix⟩ := reachN_exists_fix E
    have hk' : reachN E k i j = reachN E k0 i j := by
      have hsplit : k = k0 + (k - k0) := by omega
      rw [hsplit]
      exact reachN_fix hfix (k - k0) i j
    exact reachN_mono hk0le (hk' ▸ hk)

theorem reach_iff {E : Fin n → Fin n → Bool} {i j : Fin n} :
    reach E i j = true ↔ Relation.ReflTransGen (fun a b => E a b = true) i j :=
  ⟨reachN_sound, reach_complete⟩

theorem reach_refl (E : Fin n → Fin n → Bool) (i : Fin n) : reach E i i = true :=
  reachN_refl E (n * n) i

theorem reach_trans {E : Fin n → Fin n → Bool} {i j k : Fin n}
    (hij : reach E i j = true) (hjk : reach E j k = true) : reach E i k = true :=
  reach_complete ((reach_iff.mp hij).trans (reach_iff.mp hjk))

/-- Boolean adjacency used by the connectivity routines: under the directed
interpretation an edge `i → j` exists iff `C i j ≠ 0`; under the undirected
interpretation an edge in either direction suffices.  Modelled from the
documented semantics of `scipy.sparse.csgraph.connected_components`, to which
the source delegates. -/
def relOf (directed : Bool) (C : Fin n → Fin n → ℚ) (i j : Fin n) : Bool :=
  if directed then decide (C i j ≠ 0) else decide (C i j ≠ 0) || decide (C j i ≠ 0)

/-- Two vertices share a component iff each one reaches the other along the
adjacency selected by `directed` (for the undirected interpretation this is
plain undirected reachability, since the adjacency is symmetric).  Modelled
from the documented semantics of `scipy.sparse.csgraph.connected_components`
with `connection = strong`. -/
def sameComp (C : Fin n → Fin n → ℚ) (directed : Bool) (i j : Fin n) : Bool :=
  reach (relOf directed C) i j && reach (relOf directed C) j i

theorem sameComp_refl (C : Fin n → Fin n → ℚ) (directed : Bool) (i : Fin n) :
    sameComp C directed i i = true := by
  simp [sameComp, reach_refl]

theorem sameComp_symm {C : Fin n → Fin n → ℚ} {directed : Bool} {i j : Fin n}
    (h : sameComp C directed i j = true) : sameComp C directed j i = true := by
  simp only [sameComp, Bool.and_eq_true] at h ⊢
  exact ⟨h.2, h.1⟩

theorem sameComp_trans {C : Fin n → Fin n → ℚ} {directed : Bool} {i j k : Fin n}
    (hij : sameComp C directed i j = true) (hjk : sameComp C directed j k = true) :
    sameComp C directed i k = true := by
  simp only [sameComp, Bool.and_eq_true] at hij hjk ⊢
  exact ⟨reach_trans hij.1 hjk.1, reach_trans hjk.2 hij.2⟩

theorem sameComp_congr {C : Fin n → Fin n → ℚ} {directed : Bool} {i j : Fin n}
    (h : sameComp C directed i j = true) (a : Fin n) :
    sameComp C directed i a = sameComp C directed j a := by
  cases hja : sameComp C directed j a
  · cases hia : sameComp C directed i a
    · rfl
    · exact absurd (sameComp_trans (sameComp_symm h) hia) (by simp [hja])
  · exact sameComp_trans h hja

/-- Representative of the component of `i`: the least vertex sharing the
component of `i`.  This fixes the deterministic discovery order with which the
modelled component finder assigns its labels. -/
def rep (C : Fin n → Fin n → ℚ) (directed : Bool) (i : Fin n) : Fin n :=
  ((List.finRange n).filter fun j => sameComp C directed i j).headD i

theorem headD_congr {α : Type*} {l : List α} (h : l ≠ []) (d1 d2 : α) :
    l.headD d1 = l.headD d2 := by
  cases l with
  | nil => exact absurd rfl h
  | cons a t => rfl

theorem headD_mem_of_ne_nil {α : Type*} {l : List α} (h : l ≠ []) (d : α) :
    l.headD d ∈ l := by
  cases l with
  | nil => exact absurd rfl h
  | cons a t => exact List.mem_cons_self a t

theorem rep_filter_ne_nil (C : Fin n → Fin n → ℚ) (directed : Bool) (i : Fin n) :
    ((List.finRange n).filter fun j => sameComp C directed i j) ≠ [] :=
  List.ne_nil_of_mem
    (List.mem_filter.mpr ⟨List.mem_finRange i, sameComp_refl C directed i⟩)

theorem rep_sameComp (C : Fin n → Fin n → ℚ) (directed : Bool) (i : Fin n) :
    sameComp C directed i (rep C directed i) = true :=
  List.of_mem_filter (headD_mem_of_ne_nil (rep_filter_ne_nil C directed i) i)

theorem rep_eq_of_sameComp {C : Fin n → Fin n → ℚ} {directed : Bool} {i j : Fin n}
    (h : sameComp C directed i j = true) : rep C directed i = rep C directed j := by
  unfold rep
  have hfil : ((List.finRange n).filter fun a => sameComp C directed i a) =
      (List.finRange n).filter fun a => sameComp C directed j a :=
    List.filter_congr fun a _ => sameComp_congr h a
  rw [hfil]
  exact headD_congr (hfil ▸ rep_filter_ne_nil C directed i) i j

theorem sameComp_of_rep_eq {C : Fin n → Fin n → ℚ} {directed : Bool} {i j : Fin n}
    (h : rep C directed i = rep C directed j) : sameComp C directed i j = true :=
  sameComp_trans (rep_sameComp C directed i)
    (sameComp_symm (h ▸ rep_sameComp C directed j))

theorem rep_idem (C : Fin n → Fin n → ℚ) (directed : Bool) (i : Fin n) :
    rep C directed (rep C directed i) = rep C directed i :=
  (rep_eq_of_sameComp (rep_sameComp C directed i)).symm

/-- All vertices whose component representative is `r`, in ascending order. -/
def componentOf (C : Fin n → Fin n → ℚ) (directed : Bool) (r : Fin n) : List (Fin n) :=
  (List.finRange n).filter fun i => rep C directed i == r

/-- The component representatives in discovery (label) order. -/
def repsList (C : Fin n → Fin n → ℚ) (directed : Bool) : List (Fin n) :=
  (List.finRange n).filter fun i => rep C directed i == i

/-- The components in the label order assigned by the component finder, each
listed in ascending vertex order; this models lines 57-81 of the source. -/
def componentsPre (C : Fin n → Fin n → ℚ) (directed : Bool) : List (List (Fin n)) :=
  (repsList C directed).map (componentOf C directed)

/-- Stable insertion of a component into a size-sorted list: the new component
goes before every component of equal or smaller size. -/
def insertBySize {α : Type*} (c : List α) : List (List α) → List (List α)
  | [] => [c]
  | d :: ds => if d.length ≤ c.length then c :: d :: ds else d :: insertBySize c ds

/-- Stable sort by decreasing length, modelling the stable
`sorted(cc, key=lambda x: -len(x))` of the source. -/
def sortBySize {α : Type*} : List (List α) → List (List α)
  | [] => []
  | c :: cs => insertBySize c (sortBySize cs)

/-- Model of `connected_sets` (connectivity.py lines 32-86). -/
def connected_sets (C : Fin n → Fin n → ℚ) (directed : Bool) : List (List (Fin n)) :=
  sortBySize (componentsPre C directed)

/-- Model of `is_connected` (connectivity.py lines 155-175): the component
count reported by the component finder equals one. -/
def is_connected (C : Fin n → Fin n → ℚ) (directed : Bool) : Bool :=
  (repsList C directed).length == 1

/-- Model of `largest_connected_set` (connectivity.py lines 89-104): the first
entry of `connected_sets`; `none` models the IndexError raised when the
component list is empty. -/
def largest_connected_set (C : Fin n → Fin n → ℚ) (directed : Bool) :
    Option (List (Fin n)) :=
  (connected_sets C directed).head?

/-- Row slicing `C[lcc, :]` (connectivity.py line 142). -/
def rowSlice (C : Fin n → Fin n → ℚ) (lcc : List (Fin n)) :
    Fin lcc.length → Fin n → ℚ :=
  fun a j => C (lcc.get a) j

/-- Column slicing `C[:, lcc]` (connectivity.py line 147). -/
def colSlice {m : ℕ} (C : Fin m → Fin n → ℚ) (lcc : List (Fin n)) :
    Fin m → Fin lcc.length → ℚ :=
  fun i b => C i (lcc.get b)

/-- Model of `largest_connected_submatrix` with a caller-supplied `lcc`
(connectivity.py lines 107-152): row slicing followed by column slicing. -/
def largest_connected_submatrix (C : Fin n → Fin n → ℚ) (lcc : List (Fin n)) :
    Fin lcc.length → Fin lcc.length → ℚ :=
  colSlice (rowSlice C lcc) lcc

/-- Model of `largest_connected_submatrix` when `lcc` is not supplied: the
default component is the largest connected set; `none` models the IndexError
propagated from `largest_connected_set` on an empty component list. -/
def largest_connected_submatrix_default (C : Fin n → Fin n → ℚ) (directed : Bool) :
    Option (Σ lcc : List (Fin n), Fin lcc.length → Fin lcc.length → ℚ) :=
  (largest_connected_set C directed).map fun lcc =>
    ⟨lcc, largest_connected_submatrix C lcc⟩

theorem mem_componentOf {C : Fin n → Fin n → ℚ} {directed : Bool} {r i : Fin n} :
    i ∈ componentOf C directed r ↔ rep C directed i = r := by
  simp [componentOf, List.mem_filter, List.mem_finRange]

theorem componentOf_pairwise_lt (C : Fin n → Fin n → ℚ) (directed : Bool) (r : Fin n) :
    (componentOf C directed r).Pairwise (· < ·) :=
  (List.pairwise_lt_finRange n).sublist (List.filter_sublist _)

theorem mem_repsList {C : Fin n → Fin n → ℚ} {directed : Bool} {r : Fin n} :
    r ∈ repsList C directed ↔ rep C directed r = r := by
  simp [repsList, List.mem_filter, List.mem_finRange]

theorem repsList_nodup (C : Fin n → Fin n → ℚ) (directed : Bool) :
    (repsList C directed).Nodup :=
  (List.nodup_finRange n).filter _

theorem rep_mem_repsList (C : Fin n → Fin n → ℚ) (directed : Bool) (i : Fin n) :
    rep C directed i ∈ repsList C directed :=
  mem_repsList.mpr (rep_idem C directed i)

theorem mem_componentOf_rep (C : Fin n → Fin n → ℚ) (directed : Bool) (i : Fin n) :
    i ∈ componentOf C directed (rep C directed i) :=
  mem_componentOf.mpr rfl

theorem insertBySize_perm {α : Type*} (c : List α) (l : List (List α)) :
    List.Perm (insertBySize c l) (c :: l) := by
  induction l with
  | nil => exact List.Perm.refl _
  | cons d ds ih =>
    by_cases hdc : d.length ≤ c.length
    · simp only [insertBySize, if_pos hdc]
      exact List.Perm.refl _
    · simp only [insertBySize, if_neg hdc]
      exact (ih.cons d).trans (List.Perm.swap c d ds)

theorem sortBySize_perm {α : Type*} (l : List (List α)) : List.Perm (sortBySize l) l := by
  induction l with
  | nil => exact List.Perm.refl _
  | cons c cs ih => exact (insertBySize_perm c (sortBySize cs)).trans (ih.cons c)

theorem insertBySize_pairwise {α : Type*} {c : List α} {l : List (List α)}
    (h : l.Pairwise fun a b => b.length ≤ a.length) :
    (insertBySize c l).Pairwise fun a b => b.length ≤ a.length := by
  induction l with
  | nil => simp [insertBySize]
  | cons d ds ih =>
    rcases List.pairwise_cons.mp h with ⟨hd, hds⟩
    by_cases hdc : d.length ≤ c.length
    · simp only [insertBySize, if_pos hdc]
      refine List.pairwise_cons.mpr ⟨?_, h⟩
      intro b hb
      rcases List.mem_cons.mp hb with hb | hb
      · exact hb ▸ hdc
      · exact le_trans (hd b hb) hdc
    · simp only [insertBySize, if_neg hdc]
      refine List.pairwise_cons.mpr ⟨?_, ih hds⟩
      intro b hb
      rcases List.mem_cons.mp ((insertBySize_perm c ds).mem_iff.mp hb) with hb | hb
      · exact hb ▸ le_of_lt (lt_of_not_le hdc)
      · exact hd b hb

theorem sortBySize_pairwise {α : Type*} (l : List (List α)) :
    (sortBySize l).Pairwise fun a b => b.length ≤ a.length := by
  induction l with
  | nil => simp [sortBySize]
  | cons c cs ih => exact insertBySize_pairwise ih

theorem insertBySize_filter {α : Type*} (c : List α) (l : List (List α)) (s : ℕ) :
    (insertBySize c l).filter (fun x => x.length == s) =
      (c :: l).filter fun x => x.length == s := by
  induction l with
  | nil => rfl
  | cons d ds ih =>
    by_cases hdc : d.length ≤ c.length
    · simp only [insertBySize, if_pos hdc]
    · simp only [insertBySize, if_neg hdc]
      by_cases hd : d.length = s
      · by_cases hc : c.length = s
        · omega
        · simp [List.filter_cons, hd, hc, ih]
      · by_cases hc : c.length = s
        · simp [List.filter_cons, hd, hc, ih]
        · simp [List.filter_cons, hd, hc, ih]

theorem sortBySize_filter {α : Type*} (l : List (List α)) (s : ℕ) :
    (sortBySize l).filter (fun x => x.length == s) =
      l.filter fun x => x.length == s := by
  induction l with
  | nil => rfl
  | cons c cs ih =>
    have h := insertBySize_filter c (sortBySize cs) s
    by_cases hc : c.length = s
    · simp only [sortBySize, h, List.filter_cons, hc]
      simp [ih]
    · simp only [sortBySize, h, List.filter_cons]
      simp [hc, ih]

theorem connected_sets_perm (C : Fin n → Fin n → ℚ) (directed : Bool) :
    List.Perm (connected_sets C directed) (componentsPre C directed) :=
  sortBySize_perm _

theorem mem_connected_sets {C : Fin n → Fin n → ℚ} {directed : Bool}
    {c : List (Fin n)} :
    c ∈ connected_sets C directed ↔
      ∃ r, rep C directed r = r ∧ c = componentOf C directed r := by
  rw [(connected_sets_perm C directed).mem_iff]
  constructor
  · intro hc
    rcases List.mem_map.mp hc with ⟨r, hr, hcr⟩
    exact ⟨r, mem_repsList.mp hr, hcr.symm⟩
  · rintro ⟨r, hr, rfl⟩
    exact List.mem_map.mpr ⟨r, mem_repsList.mpr hr, rfl⟩

theorem countP_componentsPre (C : Fin n → Fin n → ℚ) (directed : Bool) (i : Fin n) :
    (componentsPre C directed).countP (fun c => decide (i ∈ c)) = 1 := by
  unfold componentsPre
  rw [List.countP_map]
  have hcongr : ∀ r ∈ repsList C directed,
      ((fun c => decide (i ∈ c)) ∘ componentOf C directed) r = true ↔
        (r == rep C directed i) = true := by
    intro r _
    simp only [Function.comp_apply, decide_eq_true_eq, beq_iff_eq]
    rw [mem_componentOf]
    constructor
    · intro h; exact h.symm
    · intro h; exact h.symm
  rw [List.countP_congr hcongr]
  rw [← List.count_eq_countP]
  exact List.count_eq_one_of_mem (repsList_nodup C directed) (rep_mem_repsList C directed i)

theorem countP_connected_sets (C : Fin n → Fin n → ℚ) (directed : Bool) (i : Fin n) :
    (connected_sets C directed).countP (fun c => decide (i ∈ c)) = 1 := by
  rw [(connected_sets_perm C directed).countP_eq]
  exact countP_componentsPre C directed i

theorem connected_sets_cover (C : Fin n → Fin n → ℚ) (directed : Bool) (i : Fin n) :
    ∃ c ∈ connected_sets C directed, i ∈ c :=
  ⟨componentOf C directed (rep C directed i),
    mem_connected_sets.mpr ⟨rep C directed i, rep_idem C directed i, rfl⟩,
    mem_componentOf_rep C directed i⟩

theorem connected_sets_disjoint (C : Fin n → Fin n → ℚ) (directed : Bool) :
    (connected_sets C directed).Pairwise fun c1 c2 => ∀ v, v ∈ c1 → v ∉ c2 := by
  have hsym : ∀ {c1 c2 : List (Fin n)},
      (∀ v, v ∈ c1 → v ∉ c2) → ∀ v, v ∈ c2 → v ∉ c1 := by
    intro c1 c2 h v hv2 hv1
    exact h v hv1 hv2
  rw [(connected_sets_perm C directed).pairwise_iff hsym]
  unfold componentsPre
  refine List.Pairwise.map _ ?_ ((repsList_nodup C directed) : _)
  intro r1 r2 hne v hv1 hv2
  exact hne ((mem_componentOf.mp hv1).symm.trans (mem_componentOf.mp hv2))

theorem connected_sets_same_comp (C : Fin n → Fin n → ℚ) (directed : Bool)
    (i j : Fin n) :
    (∃ c ∈ connected_sets C directed, i ∈ c ∧ j ∈ c) ↔
      rep C directed i = rep C directed j := by
  constructor
  · rintro ⟨c, hc, hi, hj⟩
    rcases mem_connected_sets.mp hc with ⟨r, _, rfl⟩
    exact (mem_componentOf.mp hi).trans (mem_componentOf.mp hj).symm
  · intro h
    exact ⟨componentOf C directed (rep C directed i),
      mem_connected_sets.mpr ⟨rep C directed i, rep_idem C directed i, rfl⟩,
      mem_componentOf_rep C directed i, h ▸ mem_componentOf_rep C directed j⟩

theorem relOf_true_iff {C : Fin n → Fin n → ℚ} {a b : Fin n} :
    relOf true C a b = true ↔ C a b ≠ 0 := by
  simp [relOf]

theorem relOf_false_iff {C : Fin n → Fin n → ℚ} {a b : Fin n} :
    relOf false C a b = true ↔ (C a b ≠ 0 ∨ C b a ≠ 0) := by
  simp [relOf]

theorem rtg_relOf_true_iff {C : Fin n → Fin n → ℚ} {i j : Fin n} :
    Relation.ReflTransGen (fun a b => relOf true C a b = true) i j ↔
      Relation.ReflTransGen (fun a b : Fin n => C a b ≠ 0) i j :=
  ⟨Relation.ReflTransGen.mono fun a b h => relOf_true_iff.mp h,
   Relation.ReflTransGen.mono fun a b h => relOf_true_iff.mpr h⟩

theorem rtg_relOf_false_iff {C : Fin n → Fin n → ℚ} {i j : Fin n} :
    Relation.ReflTransGen (fun a b => relOf false C a b = true) i j ↔
      Relation.ReflTransGen (fun a b : Fin n => C a b ≠ 0 ∨ C b a ≠ 0) i j :=
  ⟨Relation.ReflTransGen.mono fun a b h => relOf_false_iff.mp h,
   Relation.ReflTransGen.mono fun a b h => relOf_false_iff.mpr h⟩

theorem relOf_false_symm (C : Fin n → Fin n → ℚ) :
    Symmetric fun a b : Fin n => relOf false C a b = true := by
  intro a b h
  exact relOf_false_iff.mpr (relOf_false_iff.mp h).symm

theorem sameComp_false_iff_reach {C : Fin n → Fin n → ℚ} {i j : Fin n} :
    sameComp C false i j = true ↔
      Relation.ReflTransGen (fun a b => relOf false C a b = true) i j := by
  simp only [sameComp, Bool.and_eq_true, reach_iff]
  exact ⟨fun h => h.1,
    fun h => ⟨h, (Relation.ReflTransGen.symmetric (relOf_false_symm C)) h⟩⟩

/-- Example weight matrix on two vertices with the single edge 0 → 1, used to
instantiate hypotheses of the claim theorems. -/
def exampleC : Fin 2 → Fin 2 → ℚ := fun i j => if i = 0 ∧ j = 1 then 1 else 0

/-- Example matrix agreeing with `exampleC` on the vertex set {1} and
differing everywhere a vertex outside {1} is involved. -/
def exampleD : Fin 2 → Fin 2 → ℚ := fun i j => if i = 0 ∨ j = 0 then 5 else exampleC i j

/-- C1: for every square nonnegative weight matrix and both directedness
flags, the components returned by `connected_sets` partition the vertex set
{0,…,n-1}: every vertex appears in exactly one returned component, the
components cover all vertices, and distinct components are pairwise
disjoint. -/
theorem connected_sets_partition (C : Fin n → Fin n → ℚ) (directed : Bool)
    (hC : ∀ i j : Fin n, 0 ≤ C i j) :
    (∀ i : Fin n,
      (connected_sets C directed).countP (fun c => decide (i ∈ c)) = 1) ∧
    (∀ i : Fin n, ∃ c ∈ connected_sets C directed, i ∈ c) ∧
    (connected_sets C directed).Pairwise fun c1 c2 => ∀ v, v ∈ c1 → v ∉ c2 :=
  ⟨fun i => countP_connected_sets C directed i,
   fun i => connected_sets_cover C directed i,
   connected_sets_disjoint C directed⟩

/-- Witness for C1 at the concrete 2-vertex matrix `exampleC`. -/
theorem connected_sets_partition_witness :
    (∀ i j : Fin 2, 0 ≤ exampleC i j) ∧
    ((∀ i : Fin 2,
        (connected_sets exampleC true).countP (fun c => decide (i ∈ c)) = 1) ∧
      (∀ i : Fin 2, ∃ c ∈ connected_sets exampleC true, i ∈ c) ∧
      (connected_sets exampleC true).Pairwise fun c1 c2 => ∀ v, v ∈ c1 → v ∉ c2) :=
  ⟨by decide, connected_sets_partition exampleC true (by decide)⟩

/-- C2: under the directed interpretation two vertices lie in the same
returned component iff each is reachable from the other along directed edges,
an edge `i → j` existing iff the weight `C i j` is nonzero: the components
are exactly the strongly connected components of the nonzero pattern. -/
theorem connected_sets_directed_scc (C : Fin n → Fin n → ℚ) (i j : Fin n) :
    (∃ c ∈ connected_sets C true, i ∈ c ∧ j ∈ c) ↔
      (Relation.ReflTransGen (fun a b : Fin n => C a b ≠ 0) i j ∧
       Relation.ReflTransGen (fun a b : Fin n => C a b ≠ 0) j i) := by
  rw [connected_sets_same_comp]
  constructor
  · intro h
    have hs := sameComp_of_rep_eq h
    simp only [sameComp, Bool.and_eq_true] at hs
    exact ⟨rtg_relOf_true_iff.mp (reach_iff.mp hs.1),
      rtg_relOf_true_iff.mp (reach_iff.mp hs.2)⟩
  · rintro ⟨h1, h2⟩
    refine rep_eq_of_sameComp ?_
    simp only [sameComp, Bool.and_eq_true]
    exact ⟨reach_complete (rtg_relOf_true_iff.mpr h1),
      reach_complete (rtg_relOf_true_iff.mpr h2)⟩

/-- C3: under the undirected interpretation two vertices lie in the same
returned component iff they are joined by a path that ignores edge direction
entirely (an edge in either direction gives adjacency): plain undirected
reachability. -/
theorem connected_sets_undirected_reach (C : Fin n → Fin n → ℚ) (i j : Fin n) :
    (∃ c ∈ connected_sets C false, i ∈ c ∧ j ∈ c) ↔
      Relation.ReflTransGen (fun a b : Fin n => C a b ≠ 0 ∨ C b a ≠ 0) i j := by
  rw [connected_sets_same_comp]
  constructor
  · intro h
    exact rtg_relOf_false_iff.mp (sameComp_false_iff_reach.mp (sameComp_of_rep_eq h))
  · intro h
    exact rep_eq_of_sameComp
      (sameComp_false_iff_reach.mpr (rtg_relOf_false_iff.mpr h))

/-- C4: with a caller-supplied list `lcc` of distinct valid vertex indices the
returned sub-matrix is square of size `lcc.length` (this is its index type in
both dimensions), its `(a, b)` entry equals the `(lcc[a], lcc[b])` entry of
the input, and entries of the input involving a vertex outside `lcc` do not
contribute: any matrix agreeing on `lcc × lcc` yields the same sub-matrix. -/
theorem largest_connected_submatrix_entries (C D : Fin n → Fin n → ℚ)
    (lcc : List (Fin n)) (hnd : lcc.Nodup)
    (hagree : ∀ i j : Fin n, i ∈ lcc → j ∈ lcc → C i j = D i j)
    (a b : Fin lcc.length) :
    largest_connected_submatrix C lcc a b = C (lcc.get a) (lcc.get b) ∧
    largest_connected_submatrix C lcc a b =
      largest_connected_submatrix D lcc a b := by
  refine ⟨rfl, ?_⟩
  show C (lcc.get a) (lcc.get b) = D (lcc.get a) (lcc.get b)
  exact hagree _ _ (lcc.get_mem _ _) (lcc.get_mem _ _)

/-- Index sequence used in the C4 witness. -/
def exLcc : List (Fin 2) := [1]

/-- Position 0 of the C4 witness index sequence. -/
def exIdx : Fin exLcc.length := ⟨0, by decide⟩

/-- Witness for C4 at `exampleC` and `exampleD`, which differ on every entry
involving the excluded vertex 0, with `lcc = [1]`. -/
theorem largest_connected_submatrix_entries_witness :
    (exLcc.Nodup ∧
      (∀ i j : Fin 2, i ∈ exLcc → j ∈ exLcc → exampleC i j = exampleD i j)) ∧
    (largest_connected_submatrix exampleC exLcc exIdx exIdx =
        exampleC (exLcc.get exIdx) (exLcc.get exIdx) ∧
      largest_connected_submatrix exampleC exLcc exIdx exIdx =
        largest_connected_submatrix exampleD exLcc exIdx exIdx) :=
  ⟨⟨by decide, by decide⟩,
    largest_connected_submatrix_entries exampleC exampleD exLcc
      (by decide) (by decide) exIdx exIdx⟩

/-- C5: the component list returned by `connected_sets` has non-increasing
sizes at consecutive positions, and the sort on size is stable over the
label-ordered component list: for each size, the components of that size
appear exactly in the ascending order of the internal labels assigned during
discovery (the order of `componentsPre`). -/
theorem connected_sets_size_ordering (C : Fin n → Fin n → ℚ) (directed : Bool) :
    ((connected_sets C directed).Chain' fun c1 c2 => c2.length ≤ c1.length) ∧
    (∀ s : ℕ, (connected_sets C directed).filter (fun c => c.length == s) =
      (componentsPre C directed).filter fun c => c.length == s) :=
  ⟨(sortBySize_pairwise _).chain', fun s => sortBySize_filter _ s⟩

/-- C6: every returned component is strictly ascending. -/
theorem connected_sets_components_ascending (C : Fin n → Fin n → ℚ)
    (directed : Bool) :
    ∀ c ∈ connected_sets C directed, c.Pairwise (· < ·) := by
  intro c hc
  rcases mem_connected_sets.mp hc with ⟨r, _, rfl⟩
  exact componentOf_pairwise_lt C directed r

/-- Witness for C6 at the concrete 2-vertex matrix `exampleC`, whose first
directed component is the singleton `[0]`. -/
theorem connected_sets_components_ascending_witness :
    [(0 : Fin 2)] ∈ connected_sets exampleC true ∧
    List.Pairwise (· < ·) [(0 : Fin 2)] :=
  ⟨by decide,
    connected_sets_components_ascending exampleC true [(0 : Fin 2)] (by decide)⟩

/-- C7: the direct component-count query `is_connected` returns true iff the
full ordered component construction `connected_sets` returns exactly one
component. -/
theorem is_connected_iff_one_component (C : Fin n → Fin n → ℚ)
    (directed : Bool) :
    is_connected C directed = true ↔ (connected_sets C directed).length = 1 := by
  have hlen : (connected_sets C directed).length = (repsList C directed).length := by
    rw [(connected_sets_perm C directed).length_eq]
    exact List.length_map _ _
  rw [hlen]
  simp [is_connected]

theorem relOf_submatrix (C : Fin n → Fin n → ℚ) (lcc : List (Fin n)) (d : Bool)
    (x y : Fin lcc.length) :
    relOf d (largest_connected_submatrix C lcc) x y =
      relOf d C (lcc.get x) (lcc.get y) := by
  cases d <;> rfl

theorem componentOf_nodup (C : Fin n → Fin n → ℚ) (d : Bool) (r : Fin n) :
    (componentOf C d r).Nodup :=
  (List.nodup_finRange n).filter _

theorem rtg_restricted_of_rtg {C : Fin n → Fin n → ℚ} {d : Bool} {v : Fin n} :
    ∀ {u : Fin n},
      Relation.ReflTransGen (fun a b => relOf d C a b = true) u v →
      Relation.ReflTransGen (fun a b => relOf d C a b = true) v u →
      Relation.ReflTransGen
        (fun a b => relOf d C a b = true ∧
          rep C d a = rep C d v ∧ rep C d b = rep C d v) u v := by
  intro u huv
  induction huv using Relation.ReflTransGen.head_induction_on with
  | refl => intro _; exact Relation.ReflTransGen.refl
  | @head a c h' h ih =>
    intro hva
    have hvc : Relation.ReflTransGen (fun a b => relOf d C a b = true) v c :=
      hva.tail h'
    have hav : Relation.ReflTransGen (fun a b => relOf d C a b = true) a v :=
      h.head h'
    have hra : rep C d a = rep C d v := by
      refine rep_eq_of_sameComp ?_
      simp only [sameComp, Bool.and_eq_true]
      exact ⟨reach_complete hav, reach_complete hva⟩
    have hrc : rep C d c = rep C d v := by
      refine rep_eq_of_sameComp ?_
      simp only [sameComp, Bool.and_eq_true]
      exact ⟨reach_complete h, reach_complete hvc⟩
    exact Relation.ReflTransGen.head ⟨h', hra, hrc⟩ (ih hvc)

theorem rtg_sub_of_restricted {C : Fin n → Fin n → ℚ} {d : Bool} {r : Fin n}
    {u w : Fin n}
    (h : Relation.ReflTransGen
      (fun a b => relOf d C a b = true ∧ rep C d a = r ∧ rep C d b = r) u w)
    (hu : u ∈ componentOf C d r) (hw : w ∈ componentOf C d r) :
    Relation.ReflTransGen
      (fun x y : Fin (componentOf C d r).length =>
        relOf d (largest_connected_submatrix C (componentOf C d r)) x y = true)
      ⟨(componentOf C d r).indexOf u, List.indexOf_lt_length.mpr hu⟩
      ⟨(componentOf C d r).indexOf w, List.indexOf_lt_length.mpr hw⟩ := by
  induction h with
  | refl => exact Relation.ReflTransGen.refl
  | @tail b c hub hbc ih =>
    obtain ⟨hE, hrb, hrc⟩ := hbc
    have hb : b ∈ componentOf C d r := mem_componentOf.mpr hrb
    refine Relation.ReflTransGen.tail (ih hb) ?_
    rw [relOf_submatrix]
    rw [List.indexOf_get, List.indexOf_get]
    exact hE

theorem sub_reach_all {C : Fin n → Fin n → ℚ} {d : Bool} {r : Fin n}
    (x y : Fin (componentOf C d r).length) :
    reach (relOf d (largest_connected_submatrix C (componentOf C d r))) x y
      = true := by
  have hu : (componentOf C d r).get x ∈ componentOf C d r :=
    (componentOf C d r).get_mem x.1 x.2
  have hv : (componentOf C d r).get y ∈ componentOf C d r :=
    (componentOf C d r).get_mem y.1 y.2
  have hru : rep C d ((componentOf C d r).get x) = r := mem_componentOf.mp hu
  have hrv : rep C d ((componentOf C d r).get y) = r := mem_componentOf.mp hv
  have hs : sameComp C d ((componentOf C d r).get x)
      ((componentOf C d r).get y) = true :=
    sameComp_of_rep_eq (hru.trans hrv.symm)
  simp only [sameComp, Bool.and_eq_true, reach_iff] at hs
  have hres := rtg_restricted_of_rtg hs.1 hs.2
  rw [hrv] at hres
  have hsub := rtg_sub_of_restricted hres hu hv
  have hx : (⟨(componentOf C d r).indexOf ((componentOf C d r).get x),
      List.indexOf_lt_length.mpr hu⟩ : Fin (componentOf C d r).length) = x := by
    refine Fin.ext ?_
    show (componentOf C d r).indexOf ((componentOf C d r).get x) = x.1
    rw [List.get_eq_getElem]
    exact List.indexOf_getElem (componentOf_nodup C d r) x.1 x.2
  have hy : (⟨(componentOf C d r).indexOf ((componentOf C d r).get y),
      List.indexOf_lt_length.mpr hv⟩ : Fin (componentOf C d r).length) = y := by
    refine Fin.ext ?_
    show (componentOf C d r).indexOf ((componentOf C d r).get y) = y.1
    rw [List.get_eq_getElem]
    exact List.indexOf_getElem (componentOf_nodup C d r) y.1 y.2
  rw [hx, hy] at hsub
  exact reach_complete hsub

theorem is_connected_of_all_sameComp {m : ℕ} (D : Fin m → Fin m → ℚ) (d : Bool)
    (hm : 0 < m) (hall : ∀ x y : Fin m, sameComp D d x y = true) :
    is_connected D d = true := by
  have hrep : ∀ i : Fin m, rep D d i = rep D d ⟨0, hm⟩ := fun i =>
    rep_eq_of_sameComp (hall i ⟨0, hm⟩)
  have hlen : (repsList D d).length = 1 := by
    have h1 : (repsList D d).length =
        (List.finRange m).countP fun i => rep D d i == i :=
      (List.countP_eq_length_filter _ _).symm
    have h2 : (List.finRange m).countP (fun i => rep D d i == i) =
        (List.finRange m).countP fun i => i == rep D d ⟨0, hm⟩ := by
      refine List.countP_congr ?_
      intro i _
      simp only [beq_iff_eq]
      constructor
      · intro h
        exact h.symm.trans (hrep i)
      · intro h
        rw [h]
        exact rep_idem D d ⟨0, hm⟩
    rw [h1, h2, ← List.count_eq_countP]
    exact List.count_eq_one_of_mem (List.nodup_finRange m) (List.mem_finRange _)
  simp [is_connected, hlen]

/-- C8: for a nonempty matrix and both directedness flags, restricting the
matrix to its largest connected component (the default `lcc`) and querying
`is_connected` on the restricted matrix with the same flag yields true. -/
theorem restrict_largest_is_connected (C : Fin n → Fin n → ℚ) (directed : Bool)
    (hn : 0 < n) :
    ∃ lcc, largest_connected_set C directed = some lcc ∧
      is_connected (largest_connected_submatrix C lcc) directed = true := by
  have hne : connected_sets C directed ≠ [] := by
    intro h
    obtain ⟨c, hc, _⟩ := connected_sets_cover C directed ⟨0, hn⟩
    rw [h] at hc
    exact List.not_mem_nil c hc
  obtain ⟨lcc, rest, hcs⟩ : ∃ a t, connected_sets C directed = a :: t := by
    cases h : connected_sets C directed with
    | nil => exact absurd h hne
    | cons a t => exact ⟨a, t, rfl⟩
  have hlcc : largest_connected_set C directed = some lcc := by
    simp [largest_connected_set, hcs]
  have hmem : lcc ∈ connected_sets C directed := by
    rw [hcs]
    exact List.mem_cons_self _ _
  rcases mem_connected_sets.mp hmem with ⟨r, hr, rfl⟩
  refine ⟨componentOf C directed r, hlcc, ?_⟩
  have hK : 0 < (componentOf C directed r).length :=
    List.length_pos.mpr (List.ne_nil_of_mem (mem_componentOf.mpr hr))
  refine is_connected_of_all_sameComp _ directed hK ?_
  intro x y
  simp only [sameComp, Bool.and_eq_true]
  exact ⟨sub_reach_all x y, sub_reach_all y x⟩

/-- Witness for C8 at the concrete 2-vertex matrix `exampleC` with the
directed interpretation. -/
theorem restrict_largest_is_connected_witness :
    0 < 2 ∧
    ∃ lcc, largest_connected_set exampleC true = some lcc ∧
      is_connected (largest_connected_submatrix exampleC lcc) true = true :=
  ⟨by decide, restrict_largest_is_connected exampleC true (by decide)⟩

/-- C9: the empty 0×0 matrix is a defined case, not an error: the component
list is empty and `is_connected` is false, for both directedness flags. -/
theorem empty_matrix_defined (C : Fin 0 → Fin 0 → ℚ) (directed : Bool) :
    connected_sets C directed = [] ∧ is_connected C directed = false :=
  ⟨rfl, rfl⟩

/-- C10: on the empty 0×0 matrix `largest_connected_set` takes the first
element of the empty component list, modelled as `none` (the IndexError the
source raises), and `largest_connected_submatrix` with no caller-supplied
`lcc` propagates the same failure. -/
theorem empty_matrix_largest_raises (C : Fin 0 → Fin 0 → ℚ) (directed : Bool) :
    largest_connected_set C directed = none ∧
    largest_connected_submatrix_default C directed = none :=
  ⟨rfl, rfl⟩

end Connectivity
